import Mathlib

/-!
Verification development for the WORM repository: a shallow embedding of the
byte container store (src/core/container/container.js, classes WormContainer
and WormSimpleContainer), the Format B archive codec, the session/context
registry (WormCore / WormSession) and the language adapter facades
(js-adapter, python-adapter, cpp adapter), together with theorems settling
the specification claims.

Bytes are modelled as `Nat` values below 256 (the contents of a Node
`Buffer`). A JavaScript `Map` keyed by strings is modelled as an association
list with unique keys: `Map.get` returns the first binding, `Map.set`
replaces the binding in place when the key is present and appends otherwise,
`Map.delete` removes the binding. This matches the `Map` semantics used by
`this.memoryFs` and `this.sessions` in the source, whose keys are unique by
construction.
-/

set_option autoImplicit false

namespace Worm

universe u

/-- Content of one container entry: a Node Buffer as a list of byte values. -/
def ByteContent : Type := List Nat

instance : DecidableEq ByteContent := by
  unfold ByteContent
  infer_instance

/-- Every byte of a Node Buffer fits in one octet. -/
def ValidBytes (b : List Nat) : Prop := ∀ x ∈ b, x < 256

/-- JavaScript Map.get: the value bound to the first matching key, if any. -/
def jsMapGet {α : Type u} : List (String × α) → String → Option α
  | [], _ => none
  | e :: rest, k => if e.1 = k then some e.2 else jsMapGet rest k

/-- JavaScript Map.set: replace the binding in place when present, append otherwise. -/
def jsMapSet {α : Type u} : List (String × α) → String → α → List (String × α)
  | [], k, v => [(k, v)]
  | e :: rest, k, v => if e.1 = k then (k, v) :: rest else e :: jsMapSet rest k v

/-- JavaScript Map.delete: remove the binding of the key. -/
def jsMapDelete {α : Type u} : List (String × α) → String → List (String × α)
  | [], _ => []
  | e :: rest, k => if e.1 = k then rest else e :: jsMapDelete rest k

/-- JavaScript Map.has, via get (values stored in the source are Buffers, never absent-like). -/
def jsMapHas {α : Type u} (m : List (String × α)) (k : String) : Bool :=
  (jsMapGet m k).isSome

theorem jsMapGet_set_self {α : Type u} (m : List (String × α)) (k : String) (v : α) :
    jsMapGet (jsMapSet m k v) k = some v := by
  induction m with
  | nil => simp [jsMapSet, jsMapGet]
  | cons e rest ih =>
    by_cases h : e.1 = k
    · simp [jsMapSet, jsMapGet, h]
    · simp [jsMapSet, jsMapGet, h, ih]

theorem jsMapGet_set_ne {α : Type u} (m : List (String × α)) (k k' : String) (v : α)
    (h : k ≠ k') : jsMapGet (jsMapSet m k v) k' = jsMapGet m k' := by
  induction m with
  | nil => simp [jsMapSet, jsMapGet, h]
  | cons e rest ih =>
    by_cases he : e.1 = k
    · simp [jsMapSet, jsMapGet, he, h]
    · by_cases he' : e.1 = k'
      · simp [jsMapSet, jsMapGet, he, he', Ne.symm h]
      · simp [jsMapSet, jsMapGet, he, he', ih]

theorem jsMapGet_eq_none_of_not_mem {α : Type u} (m : List (String × α)) (k : String)
    (h : k ∉ m.map Prod.fst) : jsMapGet m k = none := by
  induction m with
  | nil => rfl
  | cons e rest ih =>
    simp only [List.map_cons, List.mem_cons] at h
    push_neg at h
    have h1 : e.1 ≠ k := fun hk => h.1 hk.symm
    simp [jsMapGet, h1, ih h.2]

theorem jsMapGet_delete_self {α : Type u} (m : List (String × α)) (k : String)
    (hnd : (m.map Prod.fst).Nodup) : jsMapGet (jsMapDelete m k) k = none := by
  induction m with
  | nil => rfl
  | cons e rest ih =>
    simp only [List.map_cons, List.nodup_cons] at hnd
    by_cases h : e.1 = k
    · subst h
      have hdel : jsMapDelete (e :: rest) e.1 = rest := by simp [jsMapDelete]
      rw [hdel]
      exact jsMapGet_eq_none_of_not_mem rest e.1 hnd.1
    · simp [jsMapDelete, jsMapGet, h, ih hnd.2]

theorem jsMapSet_keys_of_mem {α : Type u} (m : List (String × α)) (k : String) (v : α)
    (h : k ∈ m.map Prod.fst) :
    (jsMapSet m k v).map Prod.fst = m.map Prod.fst := by
  induction m with
  | nil => simp at h
  | cons e rest ih =>
    by_cases he : e.1 = k
    · simp [jsMapSet, he]
    · simp only [List.map_cons, List.mem_cons] at h
      rcases h with h | h
      · exact absurd h.symm he
      · simp [jsMapSet, he, ih h]

theorem jsMapSet_append_of_not_mem {α : Type u} (m : List (String × α)) (k : String) (v : α)
    (h : k ∉ m.map Prod.fst) : jsMapSet m k v = m ++ [(k, v)] := by
  induction m with
  | nil => rfl
  | cons e rest ih =>
    simp only [List.map_cons, List.mem_cons] at h
    push_neg at h
    have h1 : e.1 ≠ k := fun hk => h.1 hk.symm
    simp [jsMapSet, h1, ih h.2]

/-- State of one container store instance, as held by both WormContainer and
WormSimpleContainer: the in-memory Map `memoryFs` and the `isLoaded` flag. -/
structure ContainerState where
  memoryFs : List (String × List Nat)
  isLoaded : Bool
  deriving DecidableEq, Repr

/-- Outcome of locating and parsing the backing archive, abstracting over the
wire format: the archive file may be absent (`fs.existsSync` false, or no
embedded data), present but unparseable (yauzl rejects the buffer in Format A,
or gunzip/JSON.parse throws in Format B), or parseable into a list of
path/content entries. -/
inductive ArchiveState where
  | absent : ArchiveState
  | corrupt : ArchiveState
  | entries : List (String × List Nat) → ArchiveState
  deriving DecidableEq, Repr

/-- WormContainer.load and WormSimpleContainer.load (identical bodies): a
no-op once `isLoaded` is set; otherwise parse the backing archive, inserting
each entry into `memoryFs`, and set `isLoaded`. Any failure (absent or
corrupt archive) is caught, only a warning is printed, and the store is still
marked loaded — the fail-open policy. -/
def containerLoad (a : ArchiveState) (s : ContainerState) : ContainerState :=
  if s.isLoaded then s
  else
    match a with
    | ArchiveState.entries l =>
        { memoryFs := l.foldl (fun m e => jsMapSet m e.1 e.2) s.memoryFs, isLoaded := true }
    | _ => { s with isLoaded := true }

/-- WormContainer.write: lazy load, then coerce the content to a Buffer and
upsert it into the Map. The content argument is already a byte sequence here,
matching the `Buffer.isBuffer(content) ? content : Buffer.from(content)`
coercion. -/
def containerWrite (a : ArchiveState) (p : String) (content : List Nat)
    (s : ContainerState) : ContainerState :=
  let t := containerLoad a s
  { t with memoryFs := jsMapSet t.memoryFs p content }

/-- WormContainer.read: lazy load, then `memoryFs.get`; a missing entry
throws "File not found in container". The source guards with `!content`,
which is `false` for every Buffer (Buffers, including empty ones, are truthy
objects), so the throw happens exactly when the key is absent. -/
def containerRead (a : ArchiveState) (p : String) (s : ContainerState) :
    Except String (List Nat) × ContainerState :=
  let t := containerLoad a s
  match jsMapGet t.memoryFs p with
  | some content => (Except.ok content, t)
  | none => (Except.error ("File not found in container: " ++ p), t)

/-- WormContainer.exists: lazy load, then `memoryFs.has`. -/
def containerExists (a : ArchiveState) (p : String) (s : ContainerState) :
    Bool × ContainerState :=
  let t := containerLoad a s
  (jsMapHas t.memoryFs p, t)

/-- WormContainer.remove: lazy load; delete and return true when the path is
present, otherwise return false. -/
def containerRemove (a : ArchiveState) (p : String) (s : ContainerState) :
    Bool × ContainerState :=
  let t := containerLoad a s
  if jsMapHas t.memoryFs p then (true, { t with memoryFs := jsMapDelete t.memoryFs p })
  else (false, t)

/-- WormContainer.clear: `this.memoryFs.clear()` only — it does not call
load() and does not read or write the `isLoaded` flag. -/
def containerClear (s : ContainerState) : ContainerState :=
  { s with memoryFs := [] }

theorem containerLoad_isLoaded (a : ArchiveState) (s : ContainerState) :
    (containerLoad a s).isLoaded = true := by
  cases hs : s.isLoaded
  · cases a <;> simp [containerLoad, hs]
  · simp [containerLoad, hs]

theorem containerLoad_of_loaded (a : ArchiveState) (s : ContainerState)
    (h : s.isLoaded = true) : containerLoad a s = s := by
  simp [containerLoad, h]

theorem jsMapHas_set_self {α : Type u} (m : List (String × α)) (k : String) (v : α) :
    jsMapHas (jsMapSet m k v) k = true := by
  simp [jsMapHas, jsMapGet_set_self]

theorem jsMapHas_set_mono {α : Type u} (m : List (String × α)) (k k' : String) (v : α)
    (h : jsMapHas m k' = true) : jsMapHas (jsMapSet m k v) k' = true := by
  by_cases hk : k = k'
  · subst hk
    exact jsMapHas_set_self m k v
  · simpa [jsMapHas, jsMapGet_set_ne m k k' v hk] using h

theorem jsMapHas_foldl_set {α : Type u} (l : List (String × α)) (m0 : List (String × α))
    (p : String) (h : p ∈ l.map Prod.fst ∨ jsMapHas m0 p = true) :
    jsMapHas (l.foldl (fun m e => jsMapSet m e.1 e.2) m0) p = true := by
  induction l generalizing m0 with
  | nil =>
    rcases h with h | h
    · simp at h
    · simpa using h
  | cons e rest ih =>
    simp only [List.foldl_cons]
    rcases h with h | h
    · simp only [List.map_cons, List.mem_cons] at h
      rcases h with h | h
      · subst h
        exact ih (jsMapSet m0 e.1 e.2) (Or.inr (jsMapHas_set_self m0 e.1 e.2))
      · exact ih (jsMapSet m0 e.1 e.2) (Or.inl h)
    · exact ih (jsMapSet m0 e.1 e.2) (Or.inr (jsMapHas_set_mono m0 e.1 p e.2 h))

/-- C1: for every path p and every byte content b (including empty and binary
content), write(p, b) on a container store followed by read(p) returns
exactly the bytes b; write is an upsert, so this holds for every prior store
state and backing archive. -/
theorem write_read_roundtrip (a : ArchiveState) (p : String) (b : List Nat)
    (s : ContainerState) :
    (containerRead a p (containerWrite a p b s)).1 = Except.ok b := by
  have hload : (containerLoad a s).isLoaded = true := containerLoad_isLoaded a s
  have h1 : containerLoad a
      { containerLoad a s with memoryFs := jsMapSet (containerLoad a s).memoryFs p b }
      = { containerLoad a s with memoryFs := jsMapSet (containerLoad a s).memoryFs p b } :=
    containerLoad_of_loaded _ _ (by simpa using hload)
  simp [containerWrite, containerRead, h1, jsMapGet_set_self]

/-- C3: load() is idempotent and fail-open. The result of load always has the
isLoaded flag set; once the flag is set every further load() is a no-op
leaving the in-memory map unchanged; and when the backing archive is absent
or corrupt, load only sets the flag (zero entries added) and returns
normally rather than propagating the error. This body is shared verbatim by
WormContainer.load and WormSimpleContainer.load. -/
theorem load_idempotent_fail_open (a : ArchiveState) (s : ContainerState) :
    (containerLoad a s).isLoaded = true
    ∧ containerLoad a (containerLoad a s) = containerLoad a s
    ∧ (s.isLoaded = true → containerLoad a s = s)
    ∧ ((a = ArchiveState.absent ∨ a = ArchiveState.corrupt) →
        containerLoad a s = { s with isLoaded := true }) := by
  obtain ⟨mem, loaded⟩ := s
  refine ⟨containerLoad_isLoaded a ⟨mem, loaded⟩,
    containerLoad_of_loaded a _ (containerLoad_isLoaded a ⟨mem, loaded⟩),
    fun h => containerLoad_of_loaded a _ h, ?_⟩
  rintro (rfl | rfl) <;> cases loaded <;> simp [containerLoad]

theorem load_idempotent_fail_open_check :
    containerLoad ArchiveState.absent ⟨[], false⟩ = ⟨[], true⟩ := by
  have h := load_idempotent_fail_open ArchiveState.absent ⟨[], false⟩
  exact h.2.2.2 (Or.inl rfl)

/-- C8: on a loaded store with unique paths, remove(p) of a present path
returns true, deletes exactly that entry, and a subsequent exists(p) returns
false; remove(p) of an absent path returns false and leaves the store state
entirely unchanged. -/
theorem remove_semantics (a : ArchiveState) (p : String) (s : ContainerState)
    (hl : s.isLoaded = true) (hnd : (s.memoryFs.map Prod.fst).Nodup) :
    (jsMapHas s.memoryFs p = true →
      containerRemove a p s = (true, { s with memoryFs := jsMapDelete s.memoryFs p })
      ∧ (containerExists a p (containerRemove a p s).2).1 = false)
    ∧ (jsMapHas s.memoryFs p = false →
      containerRemove a p s = (false, s)) := by
  have hload := containerLoad_of_loaded a s hl
  constructor
  · intro hhas
    have hrem : containerRemove a p s
        = (true, { s with memoryFs := jsMapDelete s.memoryFs p }) := by
      simp [containerRemove, hload, hhas]
    refine ⟨hrem, ?_⟩
    rw [hrem]
    have h2 : containerLoad a { s with memoryFs := jsMapDelete s.memoryFs p }
        = { s with memoryFs := jsMapDelete s.memoryFs p } :=
      containerLoad_of_loaded _ _ (by simpa using hl)
    simp [containerExists, h2, jsMapHas, jsMapGet_delete_self s.memoryFs p hnd]
  · intro hhas
    simp [containerRemove, hload, hhas]

theorem remove_semantics_check :
    (containerRemove ArchiveState.absent "a.txt" ⟨[("a.txt", [1, 2])], true⟩).1 = true
    ∧ (containerExists ArchiveState.absent "a.txt"
        (containerRemove ArchiveState.absent "a.txt" ⟨[("a.txt", [1, 2])], true⟩).2).1 = false
    ∧ (containerRemove ArchiveState.absent "b.txt" ⟨[("a.txt", [1, 2])], true⟩)
        = (false, ⟨[("a.txt", [1, 2])], true⟩) := by
  have h := remove_semantics ArchiveState.absent "a.txt" ⟨[("a.txt", [1, 2])], true⟩
    rfl (by decide)
  have h' := remove_semantics ArchiveState.absent "b.txt" ⟨[("a.txt", [1, 2])], true⟩
    rfl (by decide)
  have h1 := h.1 (by decide)
  exact ⟨by rw [h1.1], h1.2, h'.2 (by decide)⟩

/-- C10: clear() neither sets nor consults the isLoaded flag and performs no
load: on a fresh, not-yet-loaded store whose backing archive contains an
entry at path p, clear() followed by exists(p) returns true, because the
lazy load performed by exists repopulates the map from the archive; and on
an already loaded store clear() makes every subsequent exists return false
until the next save. -/
theorem clear_lazy_load (s : ContainerState) (l : List (String × List Nat)) (p : String)
    (hp : p ∈ l.map Prod.fst) :
    (containerClear s).isLoaded = s.isLoaded
    ∧ (containerClear s).memoryFs = []
    ∧ (containerExists (ArchiveState.entries l) p (containerClear ⟨[], false⟩)).1 = true
    ∧ (∀ (a : ArchiveState) (q : String),
        (containerExists a q (containerClear { s with isLoaded := true })).1 = false) := by
  refine ⟨rfl, rfl, ?_, ?_⟩
  · have : containerClear (⟨[], false⟩ : ContainerState) = ⟨[], false⟩ := rfl
    rw [this]
    simp only [containerExists, containerLoad]
    simp only [Bool.false_eq_true, if_false]
    exact jsMapHas_foldl_set l [] p (Or.inl hp)
  · intro a q
    have h2 : containerLoad a (containerClear { s with isLoaded := true })
        = containerClear { s with isLoaded := true } :=
      containerLoad_of_loaded _ _ rfl
    simp [containerExists, h2, containerClear, jsMapHas, jsMapGet]

theorem clear_lazy_load_check :
    (containerExists (ArchiveState.entries [("p", [7])]) "p"
      (containerClear ⟨[], false⟩)).1 = true := by
  have h := clear_lazy_load ⟨[], false⟩ [("p", [7])] "p" (by decide)
  exact h.2.2.1

/-- Alphabet of standard base64 (RFC 4648), the encoding used by Node
`Buffer.prototype.toString` with argument base64 and by `Buffer.from` with a
base64 input, which WormSimpleContainer.save and parseContainerData rely on. -/
def b64Chars : List Char :=
  "ABCDEFGHIJKLMNOPQRSTUVWXYZabcdefghijklmnopqrstuvwxyz0123456789+/".toList

/-- Character of one 6-bit group. -/
def b64Char (n : Nat) : Char := b64Chars.getD n 'A'

/-- Value of one base64 character (64 when the character is not in the alphabet). -/
def b64Val (c : Char) : Nat := b64Chars.indexOf c

/-- Standard padded base64 encoding of a byte sequence, three bytes per
four characters, as produced by Node for Buffer contents. -/
def b64Encode : List Nat → List Char
  | [] => []
  | [a] => [b64Char (a / 4), b64Char (a % 4 * 16), '=', '=']
  | [a, b] => [b64Char (a / 4), b64Char (a % 4 * 16 + b / 16), b64Char (b % 16 * 4), '=']
  | a :: b :: c :: rest =>
      b64Char (a / 4) :: b64Char (a % 4 * 16 + b / 16) ::
        b64Char (b % 16 * 4 + c / 64) :: b64Char (c % 64) :: b64Encode rest

/-- Standard base64 decoding, four characters per three bytes, with padding
handling, as performed by Node `Buffer.from` on a base64 string. -/
def b64Decode : List Char → List Nat
  | c1 :: c2 :: c3 :: c4 :: rest =>
      if c3 = '=' then [b64Val c1 * 4 + b64Val c2 / 16]
      else if c4 = '=' then
        [b64Val c1 * 4 + b64Val c2 / 16, b64Val c2 % 16 * 16 + b64Val c3 / 4]
      else
        (b64Val c1 * 4 + b64Val c2 / 16) :: (b64Val c2 % 16 * 16 + b64Val c3 / 4) ::
          (b64Val c3 % 4 * 64 + b64Val c4) :: b64Decode rest
  | _ => []

theorem b64Val_b64Char : ∀ n < 64, b64Val (b64Char n) = n := by decide

theorem b64Char_ne_pad : ∀ n < 64, b64Char n ≠ '=' := by decide

instance (l : List Nat) : Decidable (ValidBytes l) :=
  inferInstanceAs (Decidable (∀ x ∈ l, x < 256))

/-- Base64 round trip: decoding the encoding of any octet sequence gives the
sequence back, byte-exact. -/
theorem b64_roundtrip : ∀ l : List Nat, ValidBytes l → b64Decode (b64Encode l) = l
  | [], _ => rfl
  | [a], h => by
    have ha : a < 256 := h a (by simp)
    have h1 : b64Val (b64Char (a / 4)) = a / 4 := b64Val_b64Char _ (by omega)
    have h2 : b64Val (b64Char (a % 4 * 16)) = a % 4 * 16 := b64Val_b64Char _ (by omega)
    simp [b64Encode, b64Decode, h1, h2]
    omega
  | [a, b], h => by
    have ha : a < 256 := h a (by simp)
    have hb : b < 256 := h b (by simp)
    have h1 : b64Val (b64Char (a / 4)) = a / 4 := b64Val_b64Char _ (by omega)
    have h2 : b64Val (b64Char (a % 4 * 16 + b / 16)) = a % 4 * 16 + b / 16 :=
      b64Val_b64Char _ (by omega)
    have h3 : b64Val (b64Char (b % 16 * 4)) = b % 16 * 4 := b64Val_b64Char _ (by omega)
    have hne : b64Char (b % 16 * 4) ≠ '=' := b64Char_ne_pad _ (by omega)
    simp [b64Encode, b64Decode, if_neg hne, h1, h2, h3]
    omega
  | a :: b :: c :: rest, h => by
    have ha : a < 256 := h a (by simp)
    have hb : b < 256 := h b (by simp)
    have hc : c < 256 := h c (by simp)
    have ih := b64_roundtrip rest (fun x hx => h x (by simp [hx]))
    have h1 : b64Val (b64Char (a / 4)) = a / 4 := b64Val_b64Char _ (by omega)
    have h2 : b64Val (b64Char (a % 4 * 16 + b / 16)) = a % 4 * 16 + b / 16 :=
      b64Val_b64Char _ (by omega)
    have h3 : b64Val (b64Char (b % 16 * 4 + c / 64)) = b % 16 * 4 + c / 64 :=
      b64Val_b64Char _ (by omega)
    have h4 : b64Val (b64Char (c % 64)) = c % 64 := b64Val_b64Char _ (by omega)
    have hne3 : b64Char (b % 16 * 4 + c / 64) ≠ '=' := b64Char_ne_pad _ (by omega)
    have hne4 : b64Char (c % 64) ≠ '=' := b64Char_ne_pad _ (by omega)
    simp [b64Encode, b64Decode, if_neg hne3, if_neg hne4, h1, h2, h3, h4, ih]
    omega

/-- Shape of the Format B JSON document built by WormSimpleContainer.save:
a version string, an ISO creation timestamp, and the files object mapping
each path to its base64-encoded content. -/
structure ContainerDoc where
  version : String
  created : String
  files : List (String × String)
  deriving DecidableEq, Repr

/-- Files object of the document: every stored Buffer re-encoded as base64. -/
def saveDoc (created : String) (m : List (String × List Nat)) : ContainerDoc :=
  { version := "1.0", created := created,
    files := m.map fun e => (e.1, String.mk (b64Encode e.2)) }

/-- WormSimpleContainer.save: lazy load, build the container object (version
"1.0", creation timestamp, base64 files), JSON.stringify it, gzip the JSON
text and write the blob. JSON.stringify and gzip are external library
functions and enter as parameters. -/
def simpleSave (jsonStringify : ContainerDoc → List Nat) (gzip : List Nat → List Nat)
    (created : String) (a : ArchiveState) (s : ContainerState) : List Nat :=
  let t := containerLoad a s
  gzip (jsonStringify (saveDoc created t.memoryFs))

/-- WormSimpleContainer.parseContainerData: gunzip the blob, JSON.parse the
text, and insert every file entry decoded from base64 into the map; any
failure is caught inside and leaves the map untouched. gunzip and JSON.parse
are external library functions and enter as parameters, returning none where
the library call would throw. -/
def parseContainerData (gunzip : List Nat → Option (List Nat))
    (jsonParse : List Nat → Option ContainerDoc) (blob : List Nat)
    (s : ContainerState) : ContainerState :=
  match (gunzip blob).bind jsonParse with
  | none => s
  | some doc =>
      { s with memoryFs :=
          doc.files.foldl (fun m e => jsMapSet m e.1 (b64Decode e.2.data)) s.memoryFs }

/-- WormSimpleContainer.load for a store whose archive file is present and
holds `blob`: skip when already loaded, otherwise parse the blob and set the
isLoaded flag (parse failures are swallowed by parseContainerData). -/
def simpleLoad (gunzip : List Nat → Option (List Nat))
    (jsonParse : List Nat → Option ContainerDoc) (blob : List Nat)
    (s : ContainerState) : ContainerState :=
  if s.isLoaded then s
  else { parseContainerData gunzip jsonParse blob s with isLoaded := true }

theorem foldl_set_decode_encode (l : List (String × List Nat))
    (acc : List (String × List Nat))
    (hbytes : ∀ e ∈ l, ValidBytes e.2)
    (hdisj : ∀ k ∈ l.map Prod.fst, k ∉ acc.map Prod.fst)
    (hnd : (l.map Prod.fst).Nodup) :
    (l.map fun e => (e.1, String.mk (b64Encode e.2))).foldl
      (fun m e => jsMapSet m e.1 (b64Decode e.2.data)) acc = acc ++ l := by
  induction l generalizing acc with
  | nil => simp
  | cons e rest ih =>
    simp only [List.map_cons, List.foldl_cons]
    have hdec : b64Decode (String.mk (b64Encode e.2)).data = e.2 :=
      b64_roundtrip e.2 (hbytes e (by simp))
    have hkey : e.1 ∉ acc.map Prod.fst := hdisj e.1 (by simp)
    rw [hdec] at *
    have hset : jsMapSet acc e.1 e.2 = acc ++ [(e.1, e.2)] :=
      jsMapSet_append_of_not_mem acc e.1 e.2 hkey
    simp only [List.map_cons, List.nodup_cons] at hnd
    have hstep := ih (jsMapSet acc e.1 e.2)
      (fun x hx => hbytes x (by simp [hx]))
      (by
        intro k hk
        rw [hset]
        simp only [List.map_append, List.mem_append, List.map_cons, List.map_nil,
          List.mem_singleton, not_or]
        refine ⟨hdisj k (by simp [hk]), ?_⟩
        intro hke
        exact hnd.1 (hke ▸ hk))
      hnd.2
    rw [hstep, hset]
    simp

/-- C2: Format B archive round trip. Saving a loaded store holding the
mapping m produces exactly the gzip compression of the JSON document with
version "1.0", the creation timestamp, and each file base64-encoded; and a
fresh store that loads this blob reproduces the identical path-to-bytes
mapping, including zero-length files and binary content, given that the
external gzip and JSON layers invert each other on this blob (their library
contract). -/
theorem save_load_roundtrip
    (m : List (String × List Nat)) (created : String) (a : ArchiveState)
    (jsonStringify : ContainerDoc → List Nat) (gzip : List Nat → List Nat)
    (gunzip : List Nat → Option (List Nat)) (jsonParse : List Nat → Option ContainerDoc)
    (hnd : (m.map Prod.fst).Nodup)
    (hbytes : ∀ e ∈ m, ValidBytes e.2)
    (hjson : jsonParse (jsonStringify (saveDoc created m)) = some (saveDoc created m))
    (hgzip : gunzip (gzip (jsonStringify (saveDoc created m)))
      = some (jsonStringify (saveDoc created m))) :
    simpleSave jsonStringify gzip created a ⟨m, true⟩
      = gzip (jsonStringify
          ⟨"1.0", created, m.map fun e => (e.1, String.mk (b64Encode e.2))⟩)
    ∧ simpleLoad gunzip jsonParse
        (simpleSave jsonStringify gzip created a ⟨m, true⟩) ⟨[], false⟩
      = ⟨m, true⟩ := by
  have hloaded : containerLoad a ⟨m, true⟩ = ⟨m, true⟩ :=
    containerLoad_of_loaded a ⟨m, true⟩ rfl
  have hsave : simpleSave jsonStringify gzip created a ⟨m, true⟩
      = gzip (jsonStringify (saveDoc created m)) := by
    simp [simpleSave, hloaded]
  refine ⟨by rw [hsave]; rfl, ?_⟩
  rw [hsave]
  have hfold := foldl_set_decode_encode m [] hbytes (by simp) hnd
  have hparse : parseContainerData gunzip jsonParse
      (gzip (jsonStringify (saveDoc created m))) ⟨[], false⟩ = ⟨m, false⟩ := by
    unfold parseContainerData
    rw [hgzip, Option.some_bind, hjson]
    simp only [saveDoc] at hfold ⊢
    rw [hfold]
    simp
  simp [simpleLoad, hparse]

theorem save_load_roundtrip_check :
    simpleLoad some
      (fun _ => some (saveDoc "2024-01-01T00:00:00.000Z"
        [("a.bin", [0, 255, 10]), ("empty.txt", [])]))
      (simpleSave (fun _ => [0]) id "2024-01-01T00:00:00.000Z" ArchiveState.absent
        ⟨[("a.bin", [0, 255, 10]), ("empty.txt", [])], true⟩)
      ⟨[], false⟩
      = ⟨[("a.bin", [0, 255, 10]), ("empty.txt", [])], true⟩ := by
  have h := save_load_roundtrip [("a.bin", [0, 255, 10]), ("empty.txt", [])]
    "2024-01-01T00:00:00.000Z" ArchiveState.absent (fun _ => [0]) id some
    (fun _ => some (saveDoc "2024-01-01T00:00:00.000Z"
      [("a.bin", [0, 255, 10]), ("empty.txt", [])]))
    (by decide) (by decide) rfl rfl
  exact h.2

/-- Opaque JavaScript value as stored in a session context or in a history
record result field. -/
inductive JSValue where
  | num : Int → JSValue
  | str : String → JSValue
  | strList : List String → JSValue
  | undef : JSValue
  deriving DecidableEq, Repr

/-- Record pushed by WormSession.addToHistory: the Date observed at the
call, the operation label and the result. The Date is modelled as a Nat
clock value. -/
structure HistoryRecord where
  timestamp : Nat
  operation : String
  result : JSValue
  deriving DecidableEq, Repr

/-- WormSession: a name, a key-value context Map and an append-only history
array. -/
structure WormSession where
  name : String
  context : List (String × JSValue)
  history : List HistoryRecord
  deriving DecidableEq, Repr

/-- WormSession constructor: fresh empty context and history. -/
def newWormSession (name : String) : WormSession :=
  { name := name, context := [], history := [] }

/-- WormSession.addToHistory: push one timestamped record onto the history
array; nothing is ever trimmed. -/
def addToHistory (s : WormSession) (operation : String) (result : JSValue)
    (now : Nat) : WormSession :=
  { s with history := s.history ++ [⟨now, operation, result⟩] }

/-- WormSession.cleanup: clear the context Map and reset the history array. -/
def sessionCleanup (s : WormSession) : WormSession :=
  { s with context := [], history := [] }

/-- Registry state of the WormCore singleton: the Map of active sessions
keyed by name. -/
structure WormCoreState where
  sessions : List (String × WormSession)
  deriving DecidableEq, Repr

/-- WormCore.createSession: build a fresh session and bind the name to it in
the registry Map, replacing any prior binding; the displaced session is not
cleaned up, merely dropped from the Map. -/
def createSession (core : WormCoreState) (name : String) :
    WormSession × WormCoreState :=
  let session := newWormSession name
  (session, { sessions := jsMapSet core.sessions name session })

/-- WormCore.getSession: Map lookup, null (none) when absent; never creates. -/
def getSession (core : WormCoreState) (name : String) : Option WormSession :=
  jsMapGet core.sessions name

/-- WormCore.closeSession: when the name is bound, clean up that session and
delete the binding; otherwise do nothing. -/
def closeSession (core : WormCoreState) (name : String) : WormCoreState :=
  match jsMapGet core.sessions name with
  | some _ => { sessions := jsMapDelete core.sessions name }
  | none => core

/-- WormCore.shutdown: clean up every session and clear the registry Map. -/
def shutdown (_core : WormCoreState) : WormCoreState :=
  { sessions := [] }

/-- One addToHistory invocation: the label, the result and the Date observed
at that call. -/
structure HistoryCall where
  operation : String
  result : JSValue
  now : Nat
  deriving DecidableEq, Repr

/-- Sequential execution of a list of addToHistory calls on a session. -/
def runHistoryCalls (s : WormSession) (calls : List HistoryCall) : WormSession :=
  calls.foldl (fun t c => addToHistory t c.operation c.result c.now) s

theorem runHistoryCalls_history (calls : List HistoryCall) (s : WormSession) :
    (runHistoryCalls s calls).history
      = s.history ++ calls.map fun c => ⟨c.now, c.operation, c.result⟩ := by
  induction calls generalizing s with
  | nil => simp [runHistoryCalls]
  | cons c rest ih =>
    simp only [runHistoryCalls, List.foldl_cons] at *
    rw [ih]
    simp [addToHistory]

/-- C5: for a session on which N addToHistory calls are performed after
creation, the history has length exactly N, the records appear in call order
carrying the given label and result plus the observed timestamp, the
timestamps are non-decreasing whenever the observed clock values are, and no
record is ever removed: each call appends exactly one record to the existing
history. -/
theorem history_append_only (name : String) (calls : List HistoryCall)
    (hmono : List.Pairwise (fun a b => a.now ≤ b.now) calls) :
    (runHistoryCalls (newWormSession name) calls).history
      = (calls.map fun c => ⟨c.now, c.operation, c.result⟩)
    ∧ (runHistoryCalls (newWormSession name) calls).history.length = calls.length
    ∧ List.Pairwise (fun a b => a.timestamp ≤ b.timestamp)
        (runHistoryCalls (newWormSession name) calls).history
    ∧ ∀ (s : WormSession) (c : HistoryCall),
        (addToHistory s c.operation c.result c.now).history
          = s.history ++ [⟨c.now, c.operation, c.result⟩] := by
  have hh0 := runHistoryCalls_history calls (newWormSession name)
  have hh : (runHistoryCalls (newWormSession name) calls).history
      = (calls.map fun c => ⟨c.now, c.operation, c.result⟩) := by
    simpa [newWormSession] using hh0
  refine ⟨hh, by rw [hh]; simp, ?_, fun s c => rfl⟩
  rw [hh]
  exact List.pairwise_map.mpr hmono

theorem history_append_only_check :
    (runHistoryCalls (newWormSession "s")
      [⟨"js.double(5)", JSValue.num 10, 1⟩, ⟨"cpp.math.sqrt(16)", JSValue.num 4, 2⟩]).history
      = [⟨1, "js.double(5)", JSValue.num 10⟩, ⟨2, "cpp.math.sqrt(16)", JSValue.num 4⟩] := by
  have h := history_append_only "s"
    [⟨"js.double(5)", JSValue.num 10, 1⟩, ⟨"cpp.math.sqrt(16)", JSValue.num 4, 2⟩]
    (by decide)
  exact h.1

theorem mem_keys_of_jsMapGet {α : Type u} (m : List (String × α)) (k : String) (v : α)
    (h : jsMapGet m k = some v) : k ∈ m.map Prod.fst := by
  induction m with
  | nil => simp [jsMapGet] at h
  | cons e rest ih =>
    by_cases he : e.1 = k
    · simp [he]
    · simp only [jsMapGet, he, if_false] at h
      simp [ih h]

/-- C6: registry lookup is identity-preserving and closure is terminal.
With unique registered names: createSession then getSession of the same name
returns exactly the session value createSession returned; closeSession then
getSession of that name returns the not-found sentinel (null, modelled as
none); after shutdown no name resolves at all; and closeSession of an absent
name leaves the registry unchanged. -/
theorem registry_lookup_closure (core : WormCoreState) (name : String)
    (hnd : (core.sessions.map Prod.fst).Nodup) :
    getSession (createSession core name).2 name = some (createSession core name).1
    ∧ getSession (closeSession core name) name = none
    ∧ (∀ n : String, getSession (shutdown core) n = none)
    ∧ (getSession core name = none → closeSession core name = core) := by
  refine ⟨jsMapGet_set_self core.sessions name (newWormSession name), ?_, fun n => rfl, ?_⟩
  · unfold closeSession getSession
    cases hg : jsMapGet core.sessions name with
    | none => simpa using hg
    | some s => simpa using jsMapGet_delete_self core.sessions name hnd
  · intro h
    unfold getSession at h
    simp [closeSession, h]

theorem registry_lookup_closure_check :
    getSession (createSession ⟨[]⟩ "s").2 "s" = some (newWormSession "s")
    ∧ getSession (closeSession ⟨[("s", newWormSession "s")]⟩ "s") "s" = none := by
  have h1 := registry_lookup_closure ⟨[]⟩ "s" (by simp)
  have h2 := registry_lookup_closure ⟨[("s", newWormSession "s")]⟩ "s" (by simp)
  exact ⟨h1.1, h2.2.1⟩

/-- C7: session names stay unique and duplicate creation replaces without
cleanup. When the name is already registered (bound to some displaced
session), createSession returns a fresh session whose context and history
are empty, rebinds the name to that fresh session in place, preserves the
exact key sequence of the registry (names remain unique, the registry does
not grow), and leaves every other binding untouched; no cleanup runs — in
particular the registry transformation is jsMapSet alone, so the displaced
session value is dropped from the Map without its context or history being
cleared. -/
theorem create_session_replaces (core : WormCoreState) (name : String)
    (displaced : WormSession)
    (hnd : (core.sessions.map Prod.fst).Nodup)
    (hpresent : jsMapGet core.sessions name = some displaced) :
    (createSession core name).1 = newWormSession name
    ∧ (newWormSession name).context = [] ∧ (newWormSession name).history = []
    ∧ getSession (createSession core name).2 name = some (newWormSession name)
    ∧ (createSession core name).2.sessions.map Prod.fst = core.sessions.map Prod.fst
    ∧ (∀ n : String, n ≠ name →
        getSession (createSession core name).2 n = getSession core n)
    ∧ ((createSession core name).2.sessions.map Prod.fst).Nodup
    ∧ (createSession core name).2.sessions
        = jsMapSet core.sessions name (newWormSession name) := by
  have hkeys : (createSession core name).2.sessions.map Prod.fst
      = core.sessions.map Prod.fst :=
    jsMapSet_keys_of_mem core.sessions name (newWormSession name)
      (mem_keys_of_jsMapGet core.sessions name displaced hpresent)
  refine ⟨rfl, rfl, rfl, jsMapGet_set_self core.sessions name (newWormSession name),
    hkeys, ?_, by rw [hkeys]; exact hnd, rfl⟩
  intro n hn
  exact jsMapGet_set_ne core.sessions name n (newWormSession name) (Ne.symm hn)

theorem create_session_replaces_check :
    getSession (createSession
      ⟨[("s", ⟨"s", [("k", JSValue.num 1)], [⟨0, "op", JSValue.num 2⟩]⟩)]⟩ "s").2 "s"
      = some (newWormSession "s")
    ∧ (createSession
        ⟨[("s", ⟨"s", [("k", JSValue.num 1)], [⟨0, "op", JSValue.num 2⟩]⟩)]⟩ "s").2.sessions.map
          Prod.fst = ["s"] := by
  have h := create_session_replaces
    ⟨[("s", ⟨"s", [("k", JSValue.num 1)], [⟨0, "op", JSValue.num 2⟩]⟩)]⟩ "s"
    ⟨"s", [("k", JSValue.num 1)], [⟨0, "op", JSValue.num 2⟩]⟩ (by simp) (by decide)
  exact ⟨h.2.2.2.1, h.2.2.2.2.1⟩

/-- JavaScript rendering of a value inside a template string, used for
history labels on native call paths. -/
def jsValueToString : JSValue → String
  | JSValue.num n => toString n
  | JSValue.str s => s
  | JSValue.strList l => String.intercalate "," l
  | JSValue.undef => "undefined"

/-- args.join with separator comma-space, as used in the cpp call label. -/
def joinArgs (args : List JSValue) : String :=
  String.intercalate ", " (args.map jsValueToString)

/-- CppFunction.call: with a bound FFI function the call invokes it, appends
one history record labelled with namespace, function name and argument list,
and returns the result (a throw is re-labelled and propagated); without a
native binding (ffi-napi missing or the library failed to load) the call
logs the intended invocation and returns the sentinel string without
touching the session. -/
def cppFunctionCall (nativeFunc : Option (List JSValue → Except String JSValue))
    (name : String) (args : List JSValue) (session : WormSession) (now : Nat) :
    Except String (JSValue × WormSession) :=
  match nativeFunc with
  | some f =>
      match f args with
      | Except.ok result =>
          Except.ok (result,
            addToHistory session ("cpp." ++ name ++ "(" ++ joinArgs args ++ ")") result now)
      | Except.error msg =>
          Except.error ("C++ function " ++ name ++ " failed: " ++ msg)
  | none => Except.ok (JSValue.str ("C++ " ++ name ++ " result"), session)

/-- PythonContext.execute: with python-shell missing the call logs the code
and resolves to the canned simulated result list; with the shell present it
forwards to PythonShell.runString. In neither branch does execute itself
touch the session history. -/
def pythonExecute (shell : Option (String → Except String (List String)))
    (code : String) (session : WormSession) :
    Except String (List String × WormSession) :=
  match shell with
  | some run =>
      match run code with
      | Except.ok results => Except.ok (results, session)
      | Except.error e => Except.error e
  | none => Except.ok (["Simulated Python result"], session)

/-- C4 counterexample: at a concrete placeholder C++ call and a concrete
simulation-mode Python execute, both calls resolve to their labeled fallback
values, yet the owning session is returned unchanged with zero history
records — not the one record the claim requires: the addToHistory call sits
only on the native-binding branch of CppFunction.call (and in
PythonFunction.call), not on these fallback paths. -/
theorem simulated_calls_history_cex :
    cppFunctionCall none "compute" [JSValue.num 3] (newWormSession "s") 5
      = Except.ok (JSValue.str "C++ compute result", newWormSession "s")
    ∧ pythonExecute none "print(1)" (newWormSession "s")
      = Except.ok (["Simulated Python result"], newWormSession "s")
    ∧ (newWormSession "s").history.length = 0 :=
  ⟨rfl, rfl, rfl⟩

/-- C4 amended: every placeholder C++ call (no native binding available) and
every simulation-mode Python execute (python-shell missing) never throws due
to the missing toolchain and resolves to the labeled fallback value, but
appends no HistoryRecord to the owning session: the session comes back
unchanged. -/
theorem simulated_calls_fail_open (name code : String) (args : List JSValue)
    (session : WormSession) (now : Nat) :
    cppFunctionCall none name args session now
      = Except.ok (JSValue.str ("C++ " ++ name ++ " result"), session)
    ∧ pythonExecute none code session
      = Except.ok (["Simulated Python result"], session) :=
  ⟨rfl, rfl⟩

/-- JsArray from the js adapter: a wrapper over the data array. map and
filter build new JsArray instances from Array.prototype.map and
Array.prototype.filter; reduce delegates to Array.prototype.reduce with the
given accumulator seed. -/
structure JsArray where
  data : List Int
  deriving DecidableEq, Repr

/-- JsArray.map from the source. -/
def JsArray.map (a : JsArray) (f : Int → Int) : JsArray := ⟨a.data.map f⟩

/-- JsArray.filter from the source. -/
def JsArray.filter (a : JsArray) (p : Int → Bool) : JsArray := ⟨a.data.filter p⟩

/-- JsArray.reduce from the source with the initial accumulator supplied. -/
def JsArray.reduce (a : JsArray) (f : Int → Int → Int) (initial : Int) : Int :=
  a.data.foldl f initial

/-- C9: the native array pipeline on the input 1..10 — filter with the even
predicate, map with squaring, reduce with addition — yields exactly 220. -/
theorem js_pipeline_220 :
    (((JsArray.mk [1, 2, 3, 4, 5, 6, 7, 8, 9, 10]).filter
        fun n => n % 2 == 0).map (fun n => n * n)).reduce (fun a b => a + b) 0 = 220 := by
  decide

end Worm
